import Mathlib

/-!
A verification development for the path model of the advanced-open-file
repository (src/lib/models.js). JS strings are modelled as lists of
characters and the Path class as a structure built by the function
Path.make, the translation of the class constructor. Host collaborators
that live outside src/lib/models.js (the separator preference and the
absolutify helper from utils.js, the Node path module dirname function,
the default Array sort and the locale string comparison) are modelled from
the specification, as noted on each such definition; the host is a Unix
style platform, following the spec examples.
-/

deriving instance DecidableEq for Except

namespace AOF

/-- JS strings, modelled as lists of characters (one entry per code unit;
the inputs of interest are basic plane text, where code units and
characters coincide). -/
abbrev Str := List Char

/-- Modelled from the spec: the native platform separator (section 6), the
fallback of separator inference; the host is a Unix style platform. -/
def nativeSeparator : Char := '/'

/-- Modelled from the spec: preferredSeparatorFor from utils.js (not under
src/), section 4.1: scan the string for separator candidates; when both the
forward slash and the backslash appear, or neither appears, fall back to
the native platform separator. -/
def preferredSeparatorFor (path : Str) : Char :=
  if path.contains '/' && !(path.contains '\\') then '/'
  else if path.contains '\\' && !(path.contains '/') then '\\'
  else nativeSeparator

/-- Modelled from the spec: absolutify from utils.js (not under src/),
section 6: resolve a possibly relative path string against the implicit
base directory; the base directory is the filesystem root of the Unix
style host. Dot segment normalization is not modelled. -/
def absolutify (path : Str) : Str :=
  if path.head? = some '/' then path else '/' :: path

/-- Helper of jsSplit: prepend one character to a split of the rest of the
string. The empty list case is unreachable because jsSplit never returns
an empty list. -/
def jsSplitCons (sep c : Char) : List Str → List Str
  | [] => [[]]
  | p :: ps => if c = sep then [] :: p :: ps else (c :: p) :: ps

/-- JS String.prototype.split with a single character separator: the split
of the empty string is a list holding one empty part, and a trailing
separator yields a trailing empty part. -/
def jsSplit (sep : Char) : Str → List Str
  | [] => [[]]
  | c :: cs => jsSplitCons sep c (jsSplit sep cs)

/-- The Path value: the fields set by the class constructor
(src/lib/models.js, lines 22 to 37). -/
structure Path where
  directory : Str
  fragment : Str
  full : Str
  absolute : Str
  sep : Char
deriving DecidableEq

/-- The Path class constructor (src/lib/models.js, lines 23 to 37): infer
the separator, split the path on it, take the last part as the fragment,
and take the prefix of the path up to the fragment as the directory. -/
def Path.make (path : Str) : Path :=
  let sep := preferredSeparatorFor path
  let parts := jsSplit sep path
  let fragment := parts.getLastD []
  let directory := path.take (path.length - fragment.length)
  ⟨directory, fragment, path, absolutify path, sep⟩

/-- Modelled from the spec: the host directoryName collaborator (section
6), the parent directory function of the Unix style host, that is the
POSIX dirname of the Node path module (an external module): scan from the
end past trailing separators, then past the last component; when no
separator is found before position one, the result is the root or the
lone dot. -/
def dirname (p : Str) : Str :=
  match p with
  | [] => ['.']
  | c0 :: _ =>
    let r2 := (p.reverse.dropWhile (fun c => c == '/')).dropWhile (fun c => !(c == '/'))
    if r2.length < 2 then (if c0 = '/' then ['/'] else ['.'])
    else if c0 = '/' ∧ r2.length = 2 then ['/', '/']
    else (r2.drop 1).reverse

/-- Path.isRoot (src/lib/models.js, lines 43 to 45). -/
def Path.isRoot (p : Path) : Bool :=
  dirname p.absolute == p.absolute

/-- JS String.prototype.endsWith, specialized to a one character
argument. -/
def endsWithChar (s : Str) (c : Char) : Bool :=
  s.getLast? == some c

/-- Path.parent (src/lib/models.js, lines 55 to 70). -/
def Path.parent (p : Path) : Path :=
  if p.isRoot then p
  else if p.fragment ≠ [] then Path.make p.directory
  else
    let newFull := dirname p.directory
    Path.make (if endsWithChar newFull p.sep then newFull else newFull ++ [p.sep])

/-- Path.asDirectory (src/lib/models.js, lines 51 to 53). -/
def Path.asDirectory (p : Path) : Path :=
  Path.make (p.full ++ (if p.fragment ≠ [] then [p.sep] else []))

/-- Path.hasShortcut (src/lib/models.js, lines 93 to 99). -/
def Path.hasShortcut (p : Path) (shortcut : Str) : Bool :=
  let s := shortcut ++ [p.sep]
  p.fragment.isEmpty && (List.isSuffixOf (p.sep :: s) p.directory || p.directory == s)

/-- Path.equals (src/lib/models.js, lines 101 to 103). -/
def Path.equals (p other : Path) : Bool :=
  p.full == other.full

/-- Modelled from the spec: String.prototype.localeCompare, the host
collation of section 4.6, modelled as lexicographic comparison by
character code returning a negative, zero or positive number. -/
def localeCompare : Str → Str → Int
  | [], [] => 0
  | [], _ :: _ => -1
  | _ :: _, [] => 1
  | a :: as, b :: bs =>
    if a.toNat < b.toNat then -1
    else if b.toNat < a.toNat then 1
    else localeCompare as bs

/-- Path.compare (src/lib/models.js, lines 129 to 131). -/
def Path.compare (path1 path2 : Path) : Int :=
  localeCompare path1.full path2.full

/-- Code unit order on JS strings, the comparison of the default Array
sort. -/
def codeUnitLe : Str → Str → Bool
  | [], _ => true
  | _ :: _, [] => false
  | a :: as, b :: bs =>
    if a.toNat < b.toNat then true
    else if b.toNat < a.toNat then false
    else codeUnitLe as bs

/-- Stable insertion of a string into a sorted list of strings, the helper
of sortJS. -/
def insertLe (x : Str) : List Str → List Str
  | [] => [x]
  | y :: ys => if codeUnitLe x y then x :: y :: ys else y :: insertLe x ys

/-- Modelled from the spec: the default JS Array.prototype.sort, which
sorts strings in code unit order; modelled as a stable insertion sort. -/
def sortJS : List Str → List Str
  | [] => []
  | x :: xs => insertLe x (sortJS xs)

/-- The error message of the length guard of the common prefix computation
(src/lib/models.js, lines 139 to 141). -/
def invalidArgumentMsg : String :=
  "Cannot find common prefix for lists shorter than two elements."

/-- The character scan of the common prefix loop (src/lib/models.js, lines
148 to 158): take characters while they match exactly, or lowercased while
they match up to case when caseSensitive is false, and stop at the first
position where neither holds. -/
def lcpScan (caseSensitive : Bool) : Str → Str → Str
  | a :: as, b :: bs =>
    if a = b then a :: lcpScan caseSensitive as bs
    else if (!caseSensitive && (a.toLower == b.toLower)) then
      a.toLower :: lcpScan caseSensitive as bs
    else []
  | _, _ => []

/-- Path.commonPrefix (src/lib/models.js, lines 137 to 161); the throw of
the length guard is modelled with Except. -/
def Path.commonPrefix (paths : List Path) (caseSensitive : Bool) :
    Except String Path :=
  if paths.length < 2 then
    .error invalidArgumentMsg
  else
    let fulls := sortJS (paths.map Path.full)
    let first := fulls.headD []
    let last := fulls.getLastD []
    .ok (Path.make (lcpScan caseSensitive first last))

/-- Path.commonPrefix with the array state of the caller threaded
explicitly: Array.prototype.map allocates a fresh array,
Array.prototype.sort mutates only that fresh array, and the array of the
caller is handed back as the second component, holding what it holds
after the call. -/
def Path.commonPrefixFrame (paths : List Path) (caseSensitive : Bool) :
    Except String Path × List Path :=
  if paths.length < 2 then
    (.error invalidArgumentMsg, paths)
  else
    let mapped := paths.map Path.full
    let sorted := sortJS mapped
    let first := sorted.headD []
    let last := sorted.getLastD []
    (.ok (Path.make (lcpScan caseSensitive first last)), paths)

/-- Case insensitive prefix test: cip p s is true when p matches a leading
piece of s up to basic latin case. -/
def cip : Str → Str → Bool
  | [], _ => true
  | _ :: _, [] => false
  | a :: as, b :: bs => a.toLower == b.toLower && cip as bs


/-- Helper: jsSplit never returns an empty list of parts. -/
theorem jsSplit_ne_nil (sep : Char) (l : Str) : jsSplit sep l ≠ [] := by
  cases l with
  | nil => simp [jsSplit]
  | cons c cs =>
    rw [jsSplit]
    cases jsSplit sep cs with
    | nil => simp [jsSplitCons]
    | cons p ps =>
      rw [jsSplitCons]
      by_cases hc : c = sep <;> simp [hc]

/-- Helper: jsSplit yields one part more than the number of separator
occurrences. -/
theorem jsSplit_length (sep : Char) (l : Str) :
    (jsSplit sep l).length = List.count sep l + 1 := by
  induction l with
  | nil => simp [jsSplit]
  | cons c cs ih =>
    rw [jsSplit]
    cases h : jsSplit sep cs with
    | nil => exact absurd h (jsSplit_ne_nil sep cs)
    | cons p ps =>
      rw [h] at ih
      rw [jsSplitCons]
      by_cases hc : c = sep
      · subst hc
        simp only [if_pos rfl, List.count_cons, List.length_cons, beq_self_eq_true,
          if_true] at *
        omega
      · have hcc : (c == sep) = false := by simp [hc]
        rw [if_neg hc]
        simp [List.count_cons, hcc] at ih ⊢
        omega

/-- Helper: the last part of jsSplit holds no separator and is the suffix
of the string after the last separator occurrence. -/
theorem frag_spec (sep : Char) (l : Str) :
    sep ∉ (jsSplit sep l).getLastD [] ∧
      ((jsSplit sep l).getLastD [] = l ∨
        ∃ t, t ++ sep :: (jsSplit sep l).getLastD [] = l) := by
  induction l with
  | nil => simp [jsSplit]
  | cons c cs ih =>
    cases h : jsSplit sep cs with
    | nil => exact absurd h (jsSplit_ne_nil sep cs)
    | cons p ps =>
      rw [h] at ih
      obtain ⟨ihm, ihs⟩ := ih
      rw [jsSplit, h, jsSplitCons]
      by_cases hc : c = sep
      · subst hc
        rw [if_pos rfl, List.getLastD_cons]
        refine ⟨ihm, Or.inr ?_⟩
        rcases ihs with h1 | ⟨t, ht⟩
        · exact ⟨[], by rw [h1]; rfl⟩
        · exact ⟨c :: t, by rw [List.cons_append, ht]⟩
      · rw [if_neg hc]
        cases ps with
        | nil =>
          have hlen := jsSplit_length sep cs
          rw [h] at hlen
          have hcount : List.count sep cs = 0 := by
            simp only [List.length_cons, List.length_nil] at hlen
            omega
          have hnot : sep ∉ cs := List.count_eq_zero.mp hcount
          have hp : p = cs := by
            rcases ihs with h1 | ⟨t, ht⟩
            · simpa using h1
            · exact absurd (by rw [← ht]; simp : sep ∈ cs) hnot
          constructor
          · intro hmem
            rcases List.mem_cons.mp (by simpa using hmem) with h1 | h1
            · exact hc h1.symm
            · rw [hp] at h1; exact hnot h1
          · left
            simp [hp]
        | cons q qs =>
          have hL : ((c :: p) :: q :: qs).getLastD [] = (p :: q :: qs).getLastD [] := by
            simp only [List.getLastD_cons]
          rw [hL]
          have hmem2 : sep ∈ cs := by
            by_contra hnm
            have hcount : List.count sep cs = 0 := List.count_eq_zero.mpr hnm
            have hlen := jsSplit_length sep cs
            rw [h, hcount] at hlen
            simp at hlen
          refine ⟨ihm, Or.inr ?_⟩
          rcases ihs with h1 | ⟨t, ht⟩
          · exact absurd (h1 ▸ hmem2) ihm
          · exact ⟨c :: t, by rw [List.cons_append, ht]⟩

theorem make_full (s : Str) : (Path.make s).full = s := rfl

theorem make_sep (s : Str) : (Path.make s).sep = preferredSeparatorFor s := rfl

theorem make_absolute (s : Str) : (Path.make s).absolute = absolutify s := rfl

theorem make_fragment (s : Str) :
    (Path.make s).fragment = (jsSplit (preferredSeparatorFor s) s).getLastD [] := rfl

theorem make_directory (s : Str) :
    (Path.make s).directory = s.take (s.length - (Path.make s).fragment.length) := rfl

/-- Helper: taking everything but the length of the second summand of an
append yields the first summand. -/
theorem take_of_append (pre post : Str) :
    (pre ++ post).take ((pre ++ post).length - post.length) = pre := by
  have h1 : (pre ++ post).length - post.length = pre.length := by simp
  rw [h1]
  exact List.take_left pre post

/-- Helper: the directory of a constructed value is the prefix before the
fragment, and it is empty or ends in the inferred separator. -/
theorem make_directory_eq (s : Str) :
    (Path.make s).directory ++ (Path.make s).fragment = s ∧
      ((Path.make s).directory = [] ∨
        ∃ t, (Path.make s).directory = t ++ [preferredSeparatorFor s]) := by
  obtain ⟨_, hs⟩ := frag_spec (preferredSeparatorFor s) s
  rw [← make_fragment] at hs
  rcases hs with h1 | ⟨t, ht⟩
  · have hd : (Path.make s).directory = [] := by
      rw [make_directory, h1, Nat.sub_self, List.take_zero]
    exact ⟨by rw [hd, h1]; rfl, Or.inl hd⟩
  · have hd : (Path.make s).directory = t ++ [preferredSeparatorFor s] := by
      rw [make_directory]
      set F := (Path.make s).fragment with hF
      set P := preferredSeparatorFor s with hP
      have hs' : (t ++ [P]) ++ F = s := by
        rw [← ht]; simp
      rw [← hs']
      exact take_of_append (t ++ [P]) F
    refine ⟨?_, Or.inr ⟨t, hd⟩⟩
    rw [hd]
    simpa using ht

/-- C1: for every input string s, the PathValue constructed from s
satisfies directory ++ fragment = s. -/
theorem directory_append_fragment (s : Str) :
    (Path.make s).directory ++ (Path.make s).fragment = s :=
  (make_directory_eq s).1

/-- C7: construction is a total function; for every input string the
constructed value records the input as full, and construction from the
empty string yields an empty fragment and an empty directory. -/
theorem construction_total :
    (∀ s : Str, (Path.make s).full = s) ∧
      (Path.make []).fragment = [] ∧ (Path.make []).directory = [] :=
  ⟨fun _ => rfl, by decide, by decide⟩

/-- C8: for every input string, the fragment of the constructed value has
no occurrence of the inferred separator. -/
theorem fragment_no_separator (s : Str) :
    (Path.make s).fragment.contains (Path.make s).sep = false := by
  have hm : (Path.make s).sep ∉ (Path.make s).fragment := by
    rw [make_fragment, make_sep]
    exact (frag_spec (preferredSeparatorFor s) s).1
  cases hcon : (Path.make s).fragment.contains (Path.make s).sep
  · rfl
  · exact absurd (by
      rw [List.contains_iff_exists_mem_beq] at hcon
      obtain ⟨b, hb, hbeq⟩ := hcon
      rw [beq_iff_eq] at hbeq
      rwa [hbeq]) hm

/-- Helper: a list that ends in a character holds that character. -/
theorem mem_of_ends (l t : Str) (c : Char) (h : l = t ++ [c]) : c ∈ l := by
  subst h; simp

/-- Helper: contains agrees with membership. -/
theorem contains_true_iff (l : Str) (c : Char) : l.contains c = true ↔ c ∈ l := by
  rw [List.contains_iff_exists_mem_beq]
  constructor
  · rintro ⟨b, hb, hbeq⟩
    rw [beq_iff_eq] at hbeq
    rwa [hbeq]
  · intro h
    exact ⟨c, h, by simp⟩

/-- Helper: contains is false on a missing character. -/
theorem contains_false_of_not_mem (l : Str) (c : Char) (h : c ∉ l) :
    l.contains c = false := by
  cases hc : l.contains c
  · rfl
  · exact absurd ((contains_true_iff l c).mp hc) h

/-- Helper: the inferred separator is the slash or the backslash. -/
theorem prefSep_cases (s : Str) :
    preferredSeparatorFor s = '/' ∨ preferredSeparatorFor s = '\\' := by
  unfold preferredSeparatorFor nativeSeparator
  split
  · exact Or.inl rfl
  · split
    · exact Or.inr rfl
    · exact Or.inl rfl

/-- Helper: a string that ends in a slash infers the slash separator. -/
theorem prefSep_slash_of_ends (l t : Str) (h : l = t ++ ['/']) :
    preferredSeparatorFor l = '/' := by
  have hm : '/' ∈ l := mem_of_ends l t '/' h
  have hms : l.contains '/' = true := (contains_true_iff l '/').mpr hm
  unfold preferredSeparatorFor nativeSeparator
  by_cases hb : l.contains '\\' = true
  · rw [hms, hb]
    simp
  · have hbf : l.contains '\\' = false := by
      cases hcl : l.contains '\\'
      · rfl
      · exact absurd hcl hb
    rw [hms, hbf]
    simp

/-- Helper: the backslash separator arises exactly when the string holds a
backslash and no slash. -/
theorem prefSep_backslash (s : Str) (h : preferredSeparatorFor s = '\\') :
    '\\' ∈ s ∧ '/' ∉ s := by
  unfold preferredSeparatorFor nativeSeparator at h
  by_cases h1 : (s.contains '/' && !(s.contains '\\')) = true
  · rw [if_pos h1] at h
    exact absurd h (by decide)
  · rw [if_neg h1] at h
    by_cases h2 : (s.contains '\\' && !(s.contains '/')) = true
    · rw [Bool.and_eq_true] at h2
      obtain ⟨h2b, h2s⟩ := h2
      have hb : '\\' ∈ s := (contains_true_iff s '\\').mp h2b
      have hns : '/' ∉ s := by
        intro hm
        rw [(contains_true_iff s '/').mpr hm] at h2s
        simp at h2s
      exact ⟨hb, hns⟩
    · rw [if_neg h2] at h
      exact absurd h (by decide)

/-- Helper: a nonempty prefix of s made of characters of s that ends in
the inferred separator of s infers the same separator. -/
theorem prefSep_transfer (s d t : Str)
    (hd : d = t ++ [preferredSeparatorFor s])
    (hsub : ∀ a, a ∈ d → a ∈ s) :
    preferredSeparatorFor d = preferredSeparatorFor s := by
  rcases prefSep_cases s with h | h
  · rw [h] at hd ⊢
    exact prefSep_slash_of_ends d t hd
  · rw [h] at hd ⊢
    obtain ⟨_, hns⟩ := prefSep_backslash s h
    have hbd : '\\' ∈ d := mem_of_ends d t '\\' hd
    have hnd : '/' ∉ d := fun hm => hns (hsub _ hm)
    unfold preferredSeparatorFor nativeSeparator
    rw [contains_false_of_not_mem d '/' hnd, (contains_true_iff d '\\').mpr hbd]
    simp

/-- Helper: appending the inferred separator of a string keeps the
inference unchanged. -/
theorem prefSep_append_self (s : Str) :
    preferredSeparatorFor (s ++ [preferredSeparatorFor s]) = preferredSeparatorFor s := by
  rcases prefSep_cases s with h | h
  · rw [h]
    exact prefSep_slash_of_ends (s ++ ['/']) s rfl
  · rw [h]
    obtain ⟨_, hns⟩ := prefSep_backslash s h
    have hbd : '\\' ∈ s ++ ['\\'] := by simp
    have hnd : '/' ∉ s ++ ['\\'] := by
      intro hm
      rcases List.mem_append.mp hm with h1 | h1
      · exact hns h1
      · simp at h1
    unfold preferredSeparatorFor nativeSeparator
    rw [contains_false_of_not_mem _ '/' hnd, (contains_true_iff _ '\\').mpr hbd]
    simp

/-- Helper: when a string ends in its own inferred separator, the fragment
of the constructed value is empty. -/
theorem frag_nil_of_ends_sep (s t : Str)
    (h : s = t ++ [preferredSeparatorFor s]) :
    (Path.make s).fragment = [] := by
  obtain ⟨hm, hs⟩ := frag_spec (preferredSeparatorFor s) s
  rw [← make_fragment] at hm hs
  rcases hs with h1 | ⟨u, hu⟩
  · refine absurd ?_ hm
    rw [h1]
    exact mem_of_ends s t _ h
  · by_contra hne
    obtain ⟨F0, Fs, hF⟩ : ∃ x xs, (Path.make s).fragment = x :: xs := by
      cases hFc : (Path.make s).fragment
      · exact absurd hFc hne
      · exact ⟨_, _, rfl⟩
    have h2 : (u ++ preferredSeparatorFor s :: (Path.make s).fragment).getLast? =
        (t ++ [preferredSeparatorFor s]).getLast? := by rw [hu, ← h]
    rw [List.getLast?_concat, hF] at h2
    have h3 : (u ++ preferredSeparatorFor s :: F0 :: Fs).getLast? = (F0 :: Fs).getLast? := by
      rw [List.getLast?_append_of_ne_nil u (by simp), List.getLast?_cons_cons]
    rw [h3, List.getLast?_eq_getLast (F0 :: Fs) (by simp)] at h2
    have h4 : preferredSeparatorFor s ∈ F0 :: Fs := by
      have hgm : (F0 :: Fs).getLast (by simp) ∈ F0 :: Fs := List.getLast_mem (by simp)
      rw [Option.some_inj] at h2
      rwa [h2] at hgm
    rw [hF] at hm
    exact hm h4

/-- Helper: a constructed value whose fragment is nonempty has an
asDirectory that appends the separator and becomes a directory form. -/
theorem make_append_sep_fragment_nil (s : Str) :
    (Path.make (s ++ [preferredSeparatorFor s])).fragment = [] := by
  have h := prefSep_append_self s
  exact frag_nil_of_ends_sep (s ++ [preferredSeparatorFor s]) s (by rw [h])

/-- C9: asDirectory is idempotent; applying it twice gives the same value,
and in particular the same full string, as applying it once. -/
theorem asDirectory_idem (s : Str) :
    (Path.make s).asDirectory.asDirectory = (Path.make s).asDirectory ∧
      (Path.make s).asDirectory.asDirectory.full = (Path.make s).asDirectory.full := by
  by_cases hfrag : (Path.make s).fragment = []
  · have h1 : (Path.make s).asDirectory = Path.make s := by
      unfold Path.asDirectory
      rw [if_neg (fun hcon => hcon hfrag), List.append_nil, make_full]
    have hmain : (Path.make s).asDirectory.asDirectory = (Path.make s).asDirectory := by
      rw [h1]
      exact h1
    exact ⟨hmain, congrArg Path.full hmain⟩
  · have h1 : (Path.make s).asDirectory = Path.make (s ++ [preferredSeparatorFor s]) := by
      unfold Path.asDirectory
      rw [if_pos hfrag, make_full, make_sep]
    have h2 := make_append_sep_fragment_nil s
    have h3 : (Path.make (s ++ [preferredSeparatorFor s])).asDirectory
        = Path.make (s ++ [preferredSeparatorFor s]) := by
      unfold Path.asDirectory
      rw [if_neg (fun hcon => hcon h2), List.append_nil, make_full]
    have hmain : (Path.make s).asDirectory.asDirectory = (Path.make s).asDirectory := by
      rw [h1, h3]
    exact ⟨hmain, congrArg Path.full hmain⟩

/-- Helper: characters with equal codes are equal. -/
theorem char_toNat_inj (a b : Char) (h : a.toNat = b.toNat) : a = b :=
  Char.eq_of_val_eq (UInt32.toNat.inj h)

/-- C5: hasShortcut holds exactly when the value is in directory form and
its directory ends in separator, token, separator, or equals token then
separator; with the four shortcut scenarios of the spec. -/
theorem hasShortcut_spec :
    (∀ (p : Path) (tok : Str),
      Path.hasShortcut p tok = true ↔
        (p.fragment = [] ∧
          ((p.sep :: (tok ++ [p.sep])) <:+ p.directory ∨
            p.directory = tok ++ [p.sep]))) ∧
      Path.hasShortcut (Path.make "/foo/bar/:/".toList) [':'] = true ∧
      Path.hasShortcut (Path.make ":/".toList) [':'] = true ∧
      Path.hasShortcut (Path.make "/foo/bar:/".toList) [':'] = false ∧
      Path.hasShortcut (Path.make "/blah/:".toList) [':'] = false := by
  refine ⟨?_, by decide, by decide, by decide, by decide⟩
  intro p tok
  simp only [Path.hasShortcut, Bool.and_eq_true, Bool.or_eq_true,
    List.isSuffixOf_iff_suffix, beq_iff_eq, List.isEmpty_iff]

theorem localeCompare_self (a : Str) : localeCompare a a = 0 := by
  induction a with
  | nil => rfl
  | cons x xs ih =>
    rw [localeCompare, if_neg (Nat.lt_irrefl _), if_neg (Nat.lt_irrefl _)]
    exact ih

theorem localeCompare_eq_zero_iff (a b : Str) : localeCompare a b = 0 ↔ a = b := by
  induction a generalizing b with
  | nil => cases b <;> simp [localeCompare]
  | cons x xs ih =>
    cases b with
    | nil => simp [localeCompare]
    | cons y ys =>
      rw [localeCompare]
      by_cases h1 : x.toNat < y.toNat
      · rw [if_pos h1]
        constructor
        · intro h
          exact absurd h (by decide)
        · intro h
          injection h with hx _
          rw [hx] at h1
          exact absurd h1 (Nat.lt_irrefl _)
      · rw [if_neg h1]
        by_cases h2 : y.toNat < x.toNat
        · rw [if_pos h2]
          constructor
          · intro h
            exact absurd h (by decide)
          · intro h
            injection h with hx _
            rw [hx] at h2
            exact absurd h2 (Nat.lt_irrefl _)
        · rw [if_neg h2]
          have hxy : x = y := char_toNat_inj x y (by omega)
          subst hxy
          simp [ih]

theorem localeCompare_antisymm (a b : Str) : localeCompare a b = - localeCompare b a := by
  induction a generalizing b with
  | nil => cases b <;> simp [localeCompare]
  | cons x xs ih =>
    cases b with
    | nil => simp [localeCompare]
    | cons y ys =>
      rw [localeCompare, localeCompare]
      rcases Nat.lt_trichotomy x.toNat y.toNat with h | h | h
      · rw [if_pos h, if_neg (by omega), if_pos h]
      · rw [if_neg (by omega), if_neg (by omega), if_neg (by omega), if_neg (by omega)]
        exact ih ys
      · rw [if_neg (by omega), if_pos h, if_pos h]
        decide

/-- Helper: a negative comparison bounds the head codes. -/
theorem localeCompare_head_le (x y : Char) (xs ys : Str)
    (h : localeCompare (x :: xs) (y :: ys) < 0) : x.toNat ≤ y.toNat := by
  rw [localeCompare] at h
  by_cases h1 : x.toNat < y.toNat
  · omega
  · rw [if_neg h1] at h
    by_cases h2 : y.toNat < x.toNat
    · rw [if_pos h2] at h
      exact absurd h (by decide)
    · omega

theorem localeCompare_trans (a b c : Str) (hab : localeCompare a b < 0)
    (hbc : localeCompare b c < 0) : localeCompare a c < 0 := by
  induction a generalizing b c with
  | nil =>
    cases c with
    | nil =>
      cases b with
      | nil => simp [localeCompare] at hab
      | cons y ys => simp [localeCompare] at hbc
    | cons z zs => simp [localeCompare]
  | cons x xs ih =>
    cases b with
    | nil => simp [localeCompare] at hab
    | cons y ys =>
      cases c with
      | nil => simp [localeCompare] at hbc
      | cons z zs =>
        have hxy := localeCompare_head_le x y xs ys hab
        have hyz := localeCompare_head_le y z ys zs hbc
        rw [localeCompare]
        by_cases h1 : x.toNat < z.toNat
        · rw [if_pos h1]
          decide
        · have hxz : x.toNat = z.toNat := by omega
          have hxyN : x.toNat = y.toNat := by omega
          have hyzN : y.toNat = z.toNat := by omega
          rw [if_neg h1, if_neg (by omega)]
          rw [localeCompare, if_neg (by omega), if_neg (by omega)] at hab
          rw [localeCompare, if_neg (by omega), if_neg (by omega)] at hbc
          exact ih ys zs hab hbc

/-- C6: compare is a strict weak ordering consistent with equals: it is
zero on equal arguments, zero exactly when equals holds, antisymmetric
under swapping, and transitive on negative outcomes. -/
theorem compare_swo (a b c : Path) :
    Path.compare a a = 0 ∧
      (Path.compare a b = 0 ↔ Path.equals a b = true) ∧
      Path.compare a b = - Path.compare b a ∧
      (Path.compare a b < 0 → Path.compare b c < 0 → Path.compare a c < 0) := by
  refine ⟨localeCompare_self a.full, ?_, localeCompare_antisymm a.full b.full,
    fun h1 h2 => localeCompare_trans a.full b.full c.full h1 h2⟩
  rw [Path.equals, beq_iff_eq]
  exact localeCompare_eq_zero_iff a.full b.full

/-- C3: commonPrefix reports the invalid argument error exactly on
collections of fewer than two paths, and returns normally otherwise. -/
theorem commonPrefix_guard (paths : List Path) (caseSensitive : Bool) :
    (paths.length < 2 →
        Path.commonPrefix paths caseSensitive = .error invalidArgumentMsg) ∧
      (2 ≤ paths.length → ∃ p, Path.commonPrefix paths caseSensitive = .ok p) := by
  constructor
  · intro h
    unfold Path.commonPrefix
    rw [if_pos h]
  · intro h
    unfold Path.commonPrefix
    rw [if_neg (by omega)]
    exact ⟨_, rfl⟩

/-- C10: the frame of commonPrefix: the caller collection is handed back
unchanged, in length, order and elements, and the computed result agrees
with commonPrefix. -/
theorem commonPrefixFrame_id (paths : List Path) (caseSensitive : Bool) :
    (Path.commonPrefixFrame paths caseSensitive).2 = paths ∧
      (Path.commonPrefixFrame paths caseSensitive).1 =
        Path.commonPrefix paths caseSensitive := by
  by_cases h : paths.length < 2
  · simp [Path.commonPrefixFrame, Path.commonPrefix, h]
  · simp [Path.commonPrefixFrame, Path.commonPrefix, h]

/-- Helper: Char.ofNat on a valid code keeps the code. -/
theorem toNat_ofNat_valid (n : Nat) (h : n.isValidChar) :
    (Char.ofNat n).toNat = n := by
  rw [Char.ofNat, dif_pos h]
  rfl

/-- Helper: lowercasing is idempotent. -/
theorem toLower_idem (c : Char) : c.toLower.toLower = c.toLower := by
  by_cases h : c.toNat ≥ 65 ∧ c.toNat ≤ 90
  · have h1 : c.toLower = Char.ofNat (c.toNat + 32) := by
      show (if c.toNat ≥ 65 ∧ c.toNat ≤ 90 then Char.ofNat (c.toNat + 32) else c)
          = Char.ofNat (c.toNat + 32)
      rw [if_pos h]
    have hv : (c.toNat + 32).isValidChar := Or.inl (by omega)
    have hn : (Char.ofNat (c.toNat + 32)).toNat = c.toNat + 32 := toNat_ofNat_valid _ hv
    have h2 : (Char.ofNat (c.toNat + 32)).toLower = Char.ofNat (c.toNat + 32) := by
      show (if (Char.ofNat (c.toNat + 32)).toNat ≥ 65 ∧ (Char.ofNat (c.toNat + 32)).toNat ≤ 90
          then Char.ofNat ((Char.ofNat (c.toNat + 32)).toNat + 32)
          else Char.ofNat (c.toNat + 32)) = Char.ofNat (c.toNat + 32)
      rw [hn, if_neg (by omega)]
    rw [h1, h2]
  · have h1 : c.toLower = c := by
      show (if c.toNat ≥ 65 ∧ c.toNat ≤ 90 then Char.ofNat (c.toNat + 32) else c) = c
      rw [if_neg h]
    rw [h1, h1]

/-- Helper: the scan result is a case insensitive prefix of the left
input. -/
theorem cip_lcpScan_left (a b : Str) : cip (lcpScan false a b) a = true := by
  induction a generalizing b with
  | nil => cases b <;> rfl
  | cons x xs ih =>
    cases b with
    | nil => rfl
    | cons y ys =>
      rw [lcpScan]
      by_cases h1 : x = y
      · rw [if_pos h1, cip, ih ys]
        simp
      · rw [if_neg h1]
        by_cases h2 : (!false && (x.toLower == y.toLower)) = true
        · rw [if_pos h2, cip, ih ys]
          simp [toLower_idem]
        · rw [if_neg h2]
          rfl

/-- Helper: the scan result is a case insensitive prefix of the right
input. -/
theorem cip_lcpScan_right (a b : Str) : cip (lcpScan false a b) b = true := by
  induction a generalizing b with
  | nil => cases b <;> rfl
  | cons x xs ih =>
    cases b with
    | nil => rfl
    | cons y ys =>
      rw [lcpScan]
      by_cases h1 : x = y
      · rw [if_pos h1, cip, ih ys]
        simp [h1]
      · rw [if_neg h1]
        by_cases h2 : (!false && (x.toLower == y.toLower)) = true
        · rw [if_pos h2, cip, ih ys]
          simp only [Bool.and_true]
          rw [toLower_idem]
          simpa using h2
        · rw [if_neg h2]
          rfl

/-- Helper: any common case insensitive prefix of the two inputs is at
most as long as the scan result. -/
theorem cip_lcpScan_longest (q a b : Str) (ha : cip q a = true)
    (hb : cip q b = true) : q.length ≤ (lcpScan false a b).length := by
  induction q generalizing a b with
  | nil => simp
  | cons u us ih =>
    cases a with
    | nil => simp [cip] at ha
    | cons x xs =>
      cases b with
      | nil => simp [cip] at hb
      | cons y ys =>
        rw [cip, Bool.and_eq_true, beq_iff_eq] at ha hb
        obtain ⟨ha1, ha2⟩ := ha
        obtain ⟨hb1, hb2⟩ := hb
        have hxy : x.toLower = y.toLower := by rw [← ha1, hb1]
        rw [lcpScan]
        by_cases h1 : x = y
        · rw [if_pos h1]
          simp only [List.length_cons]
          exact Nat.succ_le_succ (ih xs ys ha2 hb2)
        · rw [if_neg h1, if_pos (by simp [hxy])]
          simp only [List.length_cons]
          exact Nat.succ_le_succ (ih xs ys ha2 hb2)

theorem insertLe_length (x : Str) (l : List Str) :
    (insertLe x l).length = l.length + 1 := by
  induction l with
  | nil => rfl
  | cons y ys ih =>
    rw [insertLe]
    by_cases h : codeUnitLe x y = true
    · rw [if_pos h]
      rfl
    · rw [if_neg h]
      simp [ih]

theorem sortJS_length (l : List Str) : (sortJS l).length = l.length := by
  induction l with
  | nil => rfl
  | cons x xs ih =>
    rw [sortJS, insertLe_length, ih]
    rfl

/-- C2 counterexample: on the collection of the paths B, Z and b the
computed full is b, which is not a common character prefix of all the
inputs, not even up to case, since it does not lead Z; and on the spec
scenario the computed full /foo/bar/ is not the exact common character
prefix of the two inputs. -/
theorem commonPrefix_not_common :
    Path.commonPrefix
        [Path.make "B".toList, Path.make "Z".toList, Path.make "b".toList] false
        = .ok (Path.make "b".toList) ∧
      List.isPrefixOf "b".toList "Z".toList = false ∧
      cip "b".toList "Z".toList = false ∧
      Path.commonPrefix
        [Path.make "/Foo/Bar/baz".toList, Path.make "/foo/bar/qux".toList] false
        = .ok (Path.make "/foo/bar/".toList) ∧
      List.isPrefixOf "/foo/bar/".toList "/Foo/Bar/baz".toList = false := by
  decide

/-- C2 amended: with at least two paths and caseSensitive false, the
result full is the longest case insensitive common character prefix of
the first and last full strings in sorted order; with the two spec
scenarios holding exactly as written. -/
theorem commonPrefix_ci_extremes :
    (∀ paths : List Path, 2 ≤ paths.length →
      ∃ firstS lastS r,
        (sortJS (paths.map Path.full)).head? = some firstS ∧
        (sortJS (paths.map Path.full)).getLast? = some lastS ∧
        Path.commonPrefix paths false = .ok r ∧
        cip r.full firstS = true ∧
        cip r.full lastS = true ∧
        (∀ q : Str, cip q firstS = true → cip q lastS = true →
          q.length ≤ r.full.length)) ∧
      Path.commonPrefix
        [Path.make "/Foo/Bar/baz".toList, Path.make "/foo/bar/qux".toList] false
        = .ok (Path.make "/foo/bar/".toList) ∧
      Path.commonPrefix [Path.make "/abc".toList, Path.make "/abd".toList] false
        = .ok (Path.make "/ab".toList) := by
  refine ⟨?_, by decide, by decide⟩
  intro paths hlen
  cases hsort : sortJS (paths.map Path.full) with
  | nil =>
    have hL := sortJS_length (paths.map Path.full)
    rw [hsort] at hL
    simp only [List.length_nil, List.length_map] at hL
    omega
  | cons f rest =>
    have hne : Path.commonPrefix paths false =
        .ok (Path.make (lcpScan false ((f :: rest).headD []) ((f :: rest).getLastD []))) := by
      unfold Path.commonPrefix
      rw [if_neg (by omega), hsort]
    have hlast : (f :: rest).getLast? = some ((f :: rest).getLastD []) := by
      cases hgl : (f :: rest).getLast? with
      | none =>
        rw [List.getLast?_eq_getLast (f :: rest) (by simp)] at hgl
        exact absurd hgl (by simp)
      | some x =>
        rw [List.getLastD_eq_getLast?, hgl]
        rfl
    refine ⟨f, (f :: rest).getLastD [], _, rfl, hlast, hne, ?_, ?_, ?_⟩
    · rw [make_full]
      exact cip_lcpScan_left f ((f :: rest).getLastD [])
    · rw [make_full]
      exact cip_lcpScan_right f ((f :: rest).getLastD [])
    · intro q hqf hql
      rw [make_full]
      exact cip_lcpScan_longest q f ((f :: rest).getLastD []) hqf hql

/-- Helper: dropWhile never lengthens a list. -/
theorem dropWhile_len_le (p : Char → Bool) (l : Str) :
    (l.dropWhile p).length ≤ l.length := by
  induction l with
  | nil => simp
  | cons x xs ih =>
    rw [List.dropWhile_cons]
    by_cases h : p x = true
    · rw [if_pos h]
      exact Nat.le_trans ih (by simp)
    · rw [if_neg h]

/-- Helper: the only fixed point of dirname among strings that start with
a slash is the root. -/
theorem dirname_fixed (t : Str) (h0 : t.head? = some '/') (hfix : dirname t = t) :
    t = ['/'] := by
  cases t with
  | nil => simp at h0
  | cons c0 rest =>
    have hc0 : c0 = '/' := by simpa using h0
    subst hc0
    simp only [dirname] at hfix
    set r2 := ((('/' :: rest).reverse.dropWhile (fun c => c == '/')).dropWhile
      (fun c => !(c == '/'))) with hr2
    by_cases hlen : r2.length < 2
    · rw [if_pos hlen, if_pos trivial] at hfix
      exact hfix.symm
    · rw [if_neg hlen] at hfix
      by_cases hsp : r2.length = 2
      · rw [if_pos ⟨trivial, hsp⟩] at hfix
        have hrest : rest = ['/'] := by
          simpa using hfix.symm
        subst hrest
        exfalso
        apply hlen
        rw [hr2]
        decide
      · rw [if_neg (fun hand => hsp hand.2)] at hfix
        have hle1 : r2.length ≤ ('/' :: rest).length := by
          rw [hr2]
          have ha := dropWhile_len_le (fun c => !(c == '/'))
            (('/' :: rest).reverse.dropWhile (fun c => c == '/'))
          have hb := dropWhile_len_le (fun c => c == '/') (('/' :: rest).reverse)
          have hc : (('/' :: rest).reverse).length = ('/' :: rest).length := by simp
          omega
        have hlenfix : ((r2.drop 1).reverse).length = ('/' :: rest).length := by
          rw [hfix]
        rw [List.length_reverse, List.length_drop] at hlenfix
        omega

theorem absolutify_head (s : Str) : (absolutify s).head? = some '/' := by
  unfold absolutify
  by_cases h : s.head? = some '/'
  · rw [if_pos h]
    exact h
  · rw [if_neg h]
    rfl

/-- Helper: a constructed value is a root exactly for the empty string and
the lone slash, under the Unix host model with base directory at the
root. -/
theorem isRoot_make_iff (s : Str) :
    (Path.make s).isRoot = true ↔ (s = [] ∨ s = ['/']) := by
  constructor
  · intro h
    have habs : dirname (absolutify s) = absolutify s := by
      have h2 : (Path.make s).isRoot = (dirname (absolutify s) == absolutify s) := rfl
      rw [h2] at h
      exact beq_iff_eq.mp h
    have hfix := dirname_fixed (absolutify s) (absolutify_head s) habs
    unfold absolutify at hfix
    by_cases hh : s.head? = some '/'
    · rw [if_pos hh] at hfix
      exact Or.inr hfix
    · rw [if_neg hh] at hfix
      injection hfix with _ h2
      exact Or.inl h2
  · rintro (rfl | rfl) <;> decide

/-- Helper: a root value has an empty fragment. -/
theorem isRoot_frag_nil (s : Str) (h : (Path.make s).isRoot = true) :
    (Path.make s).fragment = [] := by
  rcases (isRoot_make_iff s).mp h with rfl | rfl <;> decide

/-- Helper: constructing from the directory of a constructed value always
yields an empty fragment. -/
theorem parent_dir_frag_nil (s : Str) :
    (Path.make (Path.make s).directory).fragment = [] := by
  obtain ⟨happ, hd⟩ := make_directory_eq s
  rcases hd with h1 | ⟨t, h1⟩
  · rw [h1]
    decide
  · rw [h1]
    have hsub : ∀ a, a ∈ t ++ [preferredSeparatorFor s] → a ∈ s := by
      intro a ha
      rw [← happ, h1]
      exact List.mem_append_left _ ha
    have htr := prefSep_transfer s (t ++ [preferredSeparatorFor s]) t rfl hsub
    exact frag_nil_of_ends_sep (t ++ [preferredSeparatorFor s]) t (by rw [htr])

/-- Helper: when the fragment is empty the directory is the whole
string. -/
theorem frag_nil_directory_full (s : Str) (h : (Path.make s).fragment = []) :
    (Path.make s).directory = s := by
  have happ := (make_directory_eq s).1
  rw [h, List.append_nil] at happ
  exact happ

/-- Helper: dirname of a nonempty string without a slash is the lone
dot. -/
theorem dirname_no_slash (p : Str) (hne : p ≠ []) (hns : '/' ∉ p) :
    dirname p = ['.'] := by
  cases p with
  | nil => exact absurd rfl hne
  | cons c0 rest =>
    simp only [dirname]
    have hr2 : (((c0 :: rest).reverse.dropWhile (fun c => c == '/')).dropWhile
        (fun c => !(c == '/'))) = [] := by
      rw [List.dropWhile_eq_nil_iff]
      intro x hx
      have hxp : x ∈ c0 :: rest := by
        have hsubl : List.Sublist ((c0 :: rest).reverse.dropWhile (fun c => c == '/'))
            ((c0 :: rest).reverse) := List.dropWhile_sublist _
        have hxr : x ∈ (c0 :: rest).reverse := hsubl.subset hx
        exact List.mem_reverse.mp hxr
      have hxne : ¬ (x = '/') := fun hxe => hns (hxe ▸ hxp)
      simp [hxne]
    rw [hr2]
    have hc0 : ¬ (c0 = '/') := fun he => hns (he ▸ List.mem_cons_self c0 rest)
    simp [hc0]

/-- Helper: a string that ends in a slash constructs with an empty
fragment. -/
theorem frag_nil_of_ends_slash (l t : Str) (h : l = t ++ ['/']) :
    (Path.make l).fragment = [] := by
  have hp := prefSep_slash_of_ends l t h
  exact frag_nil_of_ends_sep l t (by rw [hp]; exact h)

/-- Helper: the one character endsWith test means ending in that
character. -/
theorem endsWithChar_true_iff (s : Str) (c : Char) :
    endsWithChar s c = true ↔ ∃ t, s = t ++ [c] := by
  unfold endsWithChar
  rw [beq_iff_eq]
  constructor
  · intro h
    cases hs : s.reverse with
    | nil =>
      have hnil : s = [] := by simpa using congrArg List.reverse hs
      rw [hnil] at h
      simp at h
    | cons x xs =>
      have hsx : s = xs.reverse ++ [x] := by
        have h2 := congrArg List.reverse hs
        simpa using h2
      rw [hsx, List.getLast?_concat] at h
      injection h with h
      exact ⟨xs.reverse, by rw [hsx, h]⟩
  · rintro ⟨t, rfl⟩
    exact List.getLast?_concat t

/-- C4: parent follows the three case policy: on a root it returns the
value itself; its result always has an empty fragment, that is a
directory form path; and parent of /a/b/ is /a/ and not /a/b. -/
theorem parent_policy (s : Str) :
    ((Path.make s).isRoot = true → (Path.make s).parent = Path.make s) ∧
      (Path.make s).parent.fragment = [] ∧
      (Path.make "/a/b/".toList).parent.full = "/a/".toList := by
  refine ⟨?_, ?_, by decide⟩
  · intro h
    unfold Path.parent
    rw [if_pos h]
  · by_cases hroot : (Path.make s).isRoot = true
    · have hp : (Path.make s).parent = Path.make s := by
        unfold Path.parent
        rw [if_pos hroot]
      rw [hp]
      exact isRoot_frag_nil s hroot
    · by_cases hfrag : (Path.make s).fragment = []
      · have hp : (Path.make s).parent = Path.make
            (if endsWithChar (dirname (Path.make s).directory) (Path.make s).sep
              then dirname (Path.make s).directory
              else dirname (Path.make s).directory ++ [(Path.make s).sep]) := by
          simp only [Path.parent]
          rw [if_neg hroot, if_neg (fun hcon => hcon hfrag)]
        rw [hp, frag_nil_directory_full s hfrag, make_sep]
        rcases prefSep_cases s with hsep | hsep
        · rw [hsep]
          by_cases hend : endsWithChar (dirname s) '/' = true
          · rw [if_pos hend]
            obtain ⟨t, ht⟩ := (endsWithChar_true_iff (dirname s) '/').mp hend
            exact frag_nil_of_ends_slash (dirname s) t ht
          · rw [if_neg hend]
            exact frag_nil_of_ends_slash (dirname s ++ ['/']) (dirname s) rfl
        · rw [hsep]
          obtain ⟨hbs, hns⟩ := prefSep_backslash s hsep
          have hsne : s ≠ [] := List.ne_nil_of_mem hbs
          rw [dirname_no_slash s hsne hns]
          decide
      · have hp : (Path.make s).parent = Path.make (Path.make s).directory := by
          unfold Path.parent
          rw [if_neg hroot, if_pos hfrag]
        rw [hp]
        exact parent_dir_frag_nil s

/-- Witness for the amended common prefix theorem at the two element
collection of /abc and /abd. -/
theorem commonPrefix_ci_extremes_witness :
    2 ≤ ([Path.make "/abc".toList, Path.make "/abd".toList] : List Path).length ∧
      (∃ firstS lastS r,
        (sortJS (([Path.make "/abc".toList, Path.make "/abd".toList] : List Path).map
          Path.full)).head? = some firstS ∧
        (sortJS (([Path.make "/abc".toList, Path.make "/abd".toList] : List Path).map
          Path.full)).getLast? = some lastS ∧
        Path.commonPrefix [Path.make "/abc".toList, Path.make "/abd".toList] false
          = .ok r ∧
        cip r.full firstS = true ∧
        cip r.full lastS = true ∧
        (∀ q : Str, cip q firstS = true → cip q lastS = true →
          q.length ≤ r.full.length)) :=
  ⟨by decide, commonPrefix_ci_extremes.1
    [Path.make "/abc".toList, Path.make "/abd".toList] (by decide)⟩

/-- Witness for the common prefix guard at a one element collection and a
two element collection. -/
theorem commonPrefix_guard_witness :
    Path.commonPrefix [Path.make "/a".toList] false = .error invalidArgumentMsg ∧
      (∃ p, Path.commonPrefix [Path.make "/a".toList, Path.make "/b".toList] false
        = .ok p) :=
  ⟨(commonPrefix_guard [Path.make "/a".toList] false).1 (by decide),
    (commonPrefix_guard [Path.make "/a".toList, Path.make "/b".toList] false).2
      (by decide)⟩

/-- Witness for the parent policy at the root path. -/
theorem parent_policy_witness :
    (Path.make "/".toList).isRoot = true ∧
      (Path.make "/".toList).parent = Path.make "/".toList :=
  ⟨by decide, (parent_policy "/".toList).1 (by decide)⟩

/-- Witness for the shortcut description at a concrete directory form
path. -/
theorem hasShortcut_spec_witness :
    Path.hasShortcut (Path.make ":/".toList) [':'] = true :=
  (hasShortcut_spec.1 (Path.make ":/".toList) [':']).mpr (by decide)

/-- Witness for the compare ordering at three concrete paths. -/
theorem compare_swo_witness :
    Path.compare (Path.make "a".toList) (Path.make "c".toList) < 0 :=
  (compare_swo (Path.make "a".toList) (Path.make "b".toList)
    (Path.make "c".toList)).2.2.2 (by decide) (by decide)

end AOF
